import Mathlib

/-!
Verification of the calvin-base runtime scheduler
(`calvin/runtime/north/scheduler.py`) against its natural-language
specification.  The task queue, the dispatch loop, the firing
primitives, the strategy ticks and the nack / replication / maintenance
event handlers are embedded shallowly below; times (Python floats from
`time.time()`) are modelled as rationals, callables by elements of a
type `F` with decidable equality, and code that can raise by `Except`.
-/

namespace Calvin

/-- Time values (Python `time.time()` floats) modelled as rationals. -/
abbrev Time := ℚ

/-- Handle of an async `DelayedCall`: the absolute time it is armed for
and whether it is still active. -/
structure Handle where
  time : Time
  active : Bool
deriving DecidableEq

/-- State of the `BaseScheduler` task machinery: the time-ordered task
list `_tasks` (pairs `(deadline, callable)`) and the at most one
outstanding timer handle `_scheduled`. -/
structure SchedState (F : Type) where
  tasks : List (Time × F)
  scheduled : Option Handle
deriving DecidableEq

/-- The index computed by the for-loop in `BaseScheduler.insert_task`:
the first position whose deadline is strictly later than `t`, or the
length of the list when there is none. -/
def insertIndex {F : Type} : List (Time × F) → Time → Nat
  | [], _ => 0
  | ti :: rest, t => if t < ti.1 then 0 else insertIndex rest t + 1

/-- Python `list.insert`: insert at position `n`, appending when `n` is
past the end. -/
def insertAt {α : Type} : List α → Nat → α → List α
  | l, 0, a => a :: l
  | [], _ + 1, a => [a]
  | x :: l, n + 1, a => x :: insertAt l n a

/-- Python `BaseScheduler._schedule_next`: cancel any outstanding handle and
register a fresh active one for `now + delay`. -/
def schedule_next {F : Type} (now delay : Time) (st : SchedState F) : SchedState F :=
  { st with scheduled := some ⟨now + delay, true⟩ }

/-- Python `BaseScheduler.insert_task`: insert `(now + delay, what)` in time
order; coalesce (drop the task) when `delay == 0` and the task just
before the insertion point has the same callable; re-arm the timer when
the new task becomes the head. -/
def insert_task {F : Type} [DecidableEq F] (now delay : Time) (what : F)
    (st : SchedState F) : SchedState F :=
  let t := now + delay
  let index := insertIndex st.tasks t
  if 0 < index ∧ delay = 0 ∧ (st.tasks.get? (index - 1)).map Prod.snd = some what then
    st
  else
    let st1 : SchedState F := { st with tasks := insertAt st.tasks index (t, what) }
    if index = 0 then schedule_next now delay st1 else st1

/-- Python `BaseScheduler._process_next`: pop the head task, run it (`run`
interprets the popped callable as a state transformer, since a task body
may freely call `insert_task`), then either re-arm the timer for the new
head deadline or, when the queue ran empty, enqueue the watchdog `wd` at
`now + 60`; finally fail unless an active handle is armed.  Returns the
popped callable together with the new state. -/
def process_next {F : Type} [DecidableEq F] (run : F → SchedState F → SchedState F)
    (wd : F) (now : Time) (st : SchedState F) : Except String (F × SchedState F) :=
  match st.tasks with
  | [] => .error "IndexError: pop from empty list"
  | (_, todo) :: rest =>
    let st1 := run todo { st with tasks := rest }
    let st2 :=
      match st1.tasks with
      | (t, _) :: _ => schedule_next now (max 0 (t - now)) st1
      | [] => insert_task now 60 wd st1
    match st2.scheduled with
    | some h => if h.active then .ok (todo, st2) else .error "NO SCHEDULED TASK!"
    | none => .error "AttributeError: NoneType object has no attribute active"

/-- The queue invariant: tasks sorted by non-decreasing deadline. -/
def sortedTasks {F : Type} (l : List (Time × F)) : Prop :=
  l.Pairwise fun a b => a.1 ≤ b.1

/-- Number of queued tasks whose callable is `what`. -/
def taskCount {F : Type} [DecidableEq F] (l : List (Time × F)) (what : F) : Nat :=
  l.countP fun p => decide (p.2 = what)

/-- Result of one `actor.fire()` call: the triple
`(did_fire, output_ok, exhausted)`. -/
structure FireRes where
  did_fire : Bool
  output_ok : Bool
  exhausted : Bool
deriving DecidableEq

/-- Observable outcome of a firing primitive on one actor: the returned
boolean, the number of `actor.fire()` calls made, and the argument pairs
`(exhausted, output_ok)` of the `actor._handle_exhaustion` calls made. -/
structure FireOut where
  fired : Bool
  fireCalls : Nat
  exhCalls : List (Bool × Bool)
deriving DecidableEq

/-- The fire budget of `BaseScheduler._fire_actor`: 0.020 seconds. -/
def fireBudget : Time := 1 / 50

/-- The while-loop of `BaseScheduler._fire_actor`.  `acc` is the running
`actor_did_fire`; each trace entry pairs the result of the next
`actor.fire()` call with the `time.time() - start_time` value observed
in that iteration. -/
def fireLoop (acc : Bool) : List (FireRes × Time) → FireOut
  | [] => ⟨acc, 0, []⟩
  | (r, ts) :: rest =>
    if r.did_fire then
      if fireBudget < ts then ⟨acc || r.did_fire, 1, []⟩
      else
        let o := fireLoop (acc || r.did_fire) rest
        ⟨o.fired, o.fireCalls + 1, o.exhCalls⟩
    else
      ⟨acc || r.did_fire, 1, [(r.exhausted, r.output_ok)]⟩

/-- Python `BaseScheduler._fire_actor` (the preemptive primitive): if the actor
is not authorized return `False` with no `fire()` call, else run the
firing loop. -/
def fire_actor (auth : Bool) (trace : List (FireRes × Time)) : FireOut :=
  if auth then fireLoop false trace else ⟨false, 0, []⟩

/-- Python `BaseScheduler._fire_actors`: iterate the actors, firing each with
the primitive `fireOne` (which may raise), catching and logging any
exception; return the set of ids of actors whose primitive returned
`True`, together with the list of logged exceptions in order. -/
def fire_actors {α ι ε : Type} [DecidableEq ι] (fireOne : α → Except ε Bool)
    (idOf : α → ι) : List α → Finset ι × List ε
  | [] => (∅, [])
  | a :: rest =>
    let out := fire_actors fireOne idOf rest
    match fireOne a with
    | .ok true => (insert (idOf a) out.1, out.2)
    | .ok false => out
    | .error e => (out.1, e :: out.2)

/-- An actor as seen by the fire-once primitive: its id, the result of
`_authorized()`, and the outcome of its (single) `fire()` call, which
may raise. -/
structure ActorE (ι ε : Type) where
  id : ι
  authorized : Bool
  fire : Except ε FireRes

/-- Python `BaseScheduler._fire_actor_once`: if unauthorized return `False`
without firing; otherwise one `fire()` call, with
`_handle_exhaustion(exhausted, output_ok)` when it did not fire.  An
exception from `fire()` propagates. -/
def fire_actor_once {ι ε : Type} (a : ActorE ι ε) : Except ε FireOut :=
  if a.authorized = false then .ok ⟨false, 0, []⟩
  else
    match a.fire with
    | .error e => .error e
    | .ok r => .ok ⟨r.did_fire, 1, if r.did_fire then [] else [(r.exhausted, r.output_ok)]⟩

/-- The fire-once primitive viewed as a boolean-returning `fireOne` for
`_fire_actors`. -/
def fireOnceBool {ι ε : Type} (a : ActorE ι ε) : Except ε Bool :=
  (fire_actor_once a).map fun o => o.fired

/-- The list comprehension in `RoundRobinScheduler.strategy`:
`[actor.id for actor in actors_to_fire if self._fire_actor_once(actor)]`.
Evaluated left to right; an exception propagates. -/
def rrFireIds {ι ε : Type} : List (ActorE ι ε) → Except ε (List ι)
  | [] => .ok []
  | a :: rest =>
    match fire_actor_once a with
    | .error e => .error e
    | .ok o =>
      match rrFireIds rest with
      | .error e => .error e
      | .ok ids => .ok (if o.fired then a.id :: ids else ids)

/-- Python `RoundRobinScheduler.strategy`: after the communicate step (outcome
`didTx`), fire every enabled actor once via the list comprehension, then
re-enqueue `strategy` at delay 0 when there was activity. -/
def RoundRobinScheduler.strategy {ι ε F : Type} [DecidableEq ι] [DecidableEq F] (didTx : Bool)
    (actors : List (ActorE ι ε)) (now : Time) (strat : F) (st : SchedState F) :
    Except ε (SchedState F) :=
  match rrFireIds actors with
  | .error e => .error e
  | .ok ids => .ok (if didTx = true ∨ ids ≠ [] then insert_task now 0 strat st else st)

/-- Python `SimpleScheduler.strategy` from the source, with the firing
primitive used by the inherited `_fire_actors` left as the parameter
`fireOne` (the refinement claim substitutes the fire-once primitive):
communicate (outcome `didTx`), fire the enabled actors through
`_fire_actors` (which catches exceptions), re-enqueue `strategy` at
delay 0 when there was activity. -/
def simpleStrategyWith {ι ε F : Type} [DecidableEq ι] [DecidableEq F]
    (fireOne : ActorE ι ε → Except ε Bool) (didTx : Bool)
    (actors : List (ActorE ι ε)) (now : Time) (strat : F) (st : SchedState F) :
    SchedState F :=
  let ids := (fire_actors fireOne ActorE.id actors).1
  if didTx = true ∨ ids ≠ ∅ then insert_task now 0 strat st else st

/-- Modelled from the spec: the `Event_Monitor` of `monitor.py` is
imported by `scheduler.py` but its source is not under `src/`.  Per the
spec each registered endpoint carries a `blocked_until` time, `0`
meaning not backed off. -/
structure Monitor (E : Type) where
  backoffs : List (E × Time)
deriving DecidableEq

/-- Modelled from the spec: `set_backoff(ep)` marks the endpoint backed
off; the exact backoff curve is an implementation policy, so the new
`blocked_until` value is taken as the parameter `blockedUntil`. -/
def set_backoff {E : Type} [DecidableEq E] (m : Monitor E) (ep : E)
    (blockedUntil : Time) : Monitor E :=
  ⟨m.backoffs.map fun p => if p.1 = ep then (p.1, blockedUntil) else p⟩

/-- Minimum of a list of times, `none` for the empty list. -/
def minTime : List Time → Option Time
  | [] => none
  | t :: rest =>
    match minTime rest with
    | none => some t
    | some m => some (min t m)

/-- Modelled from the spec: `next_slot()` is the minimum non-zero
`blocked_until` among the endpoints, or `None` when no endpoint is
backed off. -/
def next_slot {E : Type} (m : Monitor E) : Option Time :=
  minTime ((m.backoffs.map Prod.snd).filter fun t => decide (t ≠ 0))

/-- State of a `SimpleScheduler`: its monitor plus the inherited task
machinery. -/
structure SimpleState (E F : Type) where
  monitor : Monitor E
  sched : SchedState F
deriving DecidableEq

/-- Python `SimpleScheduler.tunnel_tx_nack`: set backoff on the endpoint; if
`next_slot()` is truthy (neither `None` nor `0`), insert a `strategy`
task at delay `max(0, next_slot - now)`. -/
def SimpleScheduler.tunnel_tx_nack {E F : Type} [DecidableEq E] [DecidableEq F]
    (strat : F) (blockedUntil now : Time) (st : SimpleState E F) (ep : E) :
    SimpleState E F :=
  let m := set_backoff st.monitor ep blockedUntil
  match next_slot m with
  | some ns =>
    if ns ≠ 0 then ⟨m, insert_task now (max 0 (ns - now)) strat st.sched⟩
    else ⟨m, st.sched⟩
  | none => ⟨m, st.sched⟩

/-- State of the deprecated `BaselineScheduler`: it has no task queue,
only a monitor, the `_scheduled` handle for `_loop_once` and the
`_watchdog` handle. -/
structure BaselineState (E : Type) where
  monitor : Monitor E
  scheduled : Option Handle
  watchdog : Option Handle
deriving DecidableEq

/-- Python `BaselineScheduler.tunnel_tx_nack`: set backoff on the endpoint and
nothing else (no call is scheduled). -/
def BaselineScheduler.tunnel_tx_nack {E : Type} [DecidableEq E]
    (blockedUntil : Time) (st : BaselineState E) (ep : E) : BaselineState E :=
  { st with monitor := set_backoff st.monitor ep blockedUntil }

/-- Run a list of external callback outcomes in order; the first raised
exception propagates. -/
def run_effects {ε : Type} : List (Except ε Unit) → Except ε Unit
  | [] => .ok ()
  | .error e :: _ => .error e
  | .ok _ :: rest => run_effects rest

/-- Python `BaseScheduler._check_replication`: call
`node.rm.replication_loop()` (modelled by its outcome), then insert
`strategy` at 0 and `_check_replication` itself at the replication
interval.  There is no exception handler: a raising callback
propagates and nothing is enqueued. -/
def check_replication {ε F : Type} [DecidableEq F] (replicationLoop : Except ε Unit)
    (interval now : Time) (strat chk : F) (st : SchedState F) :
    Except ε (SchedState F) :=
  match replicationLoop with
  | .error e => .error e
  | .ok _ => .ok (insert_task now interval chk (insert_task now 0 strat st))

/-- Python `BaseScheduler._maintenance_loop`: run the `actor_mgr.migrate`
calls for the migratable actors and the `enable_or_migrate` calls for
the denied actors (each modelled by its outcome, in order), then insert
`strategy` at 0 and `_maintenance_loop` itself at the maintenance
delay.  There is no exception handler: a raising callback propagates
and nothing is enqueued. -/
def maintenance_loop {ε F : Type} [DecidableEq F]
    (migrations enables : List (Except ε Unit)) (delay now : Time)
    (strat mnt : F) (st : SchedState F) : Except ε (SchedState F) :=
  match run_effects migrations with
  | .error e => .error e
  | .ok _ =>
    match run_effects enables with
    | .error e => .error e
    | .ok _ => .ok (insert_task now delay mnt (insert_task now 0 strat st))

/-! Helper lemmas about the task queue. -/

theorem insertIndex_le_length {F : Type} (l : List (Time × F)) (t : Time) :
    insertIndex l t ≤ l.length := by
  induction l with
  | nil => simp [insertIndex]
  | cons x xs ih =>
    by_cases h : t < x.1
    · simp [insertIndex, h]
    · simp only [insertIndex, if_neg h, List.length_cons]
      omega

theorem insertAt_length {α : Type} (l : List α) (n : Nat) (a : α) :
    (insertAt l n a).length = l.length + 1 := by
  induction l generalizing n with
  | nil => cases n <;> simp [insertAt]
  | cons x xs ih =>
    cases n with
    | zero => simp [insertAt]
    | succ m => simp [insertAt, ih]

theorem insertAt_perm {α : Type} (l : List α) (n : Nat) (a : α) :
    List.Perm (insertAt l n a) (a :: l) := by
  induction l generalizing n with
  | nil => cases n <;> simp [insertAt]
  | cons x xs ih =>
    cases n with
    | zero => simp [insertAt]
    | succ m =>
      exact List.Perm.trans (List.Perm.cons x (ih m)) (List.Perm.swap a x xs)

theorem insertAt_get_self {α : Type} (l : List α) (n : Nat) (a : α)
    (h : n ≤ l.length) : (insertAt l n a).get? n = some a := by
  induction l generalizing n with
  | nil =>
    have hn : n = 0 := Nat.le_zero.mp h
    subst hn
    simp [insertAt]
  | cons x xs ih =>
    cases n with
    | zero => simp [insertAt]
    | succ m =>
      simp only [insertAt, List.get?_cons_succ]
      exact ih m (Nat.le_of_succ_le_succ h)

theorem insertIndex_insertAt {F : Type} (l : List (Time × F)) (t : Time) (x : F) :
    insertIndex (insertAt l (insertIndex l t) (t, x)) t = insertIndex l t + 1 := by
  induction l with
  | nil => simp [insertIndex, insertAt]
  | cons p ps ih =>
    by_cases h : t < p.1
    · simp [insertIndex, insertAt, h]
    · simp [insertIndex, insertAt, h, ih]

theorem insertIndex_before {F : Type} (l : List (Time × F)) (t : Time) (i : Nat)
    (hi : i < insertIndex l t) : ∃ p, l.get? i = some p ∧ p.1 ≤ t := by
  induction l generalizing i with
  | nil => simp [insertIndex] at hi
  | cons x xs ih =>
    by_cases h : t < x.1
    · simp [insertIndex, h] at hi
    · cases i with
      | zero => exact ⟨x, by simp, le_of_not_lt h⟩
      | succ m =>
        simp only [insertIndex, if_neg h] at hi
        obtain ⟨p, hp, hpt⟩ := ih m (by omega)
        exact ⟨p, by simpa using hp, hpt⟩

theorem insertIndex_after {F : Type} :
    ∀ (l : List (Time × F)) (t : Time), sortedTasks l → ∀ (i : Nat) (p : Time × F),
      l.get? i = some p → insertIndex l t ≤ i → t < p.1 := by
  intro l t
  induction l with
  | nil => intro _ i p hp _; simp at hp
  | cons x xs ih =>
    intro hs i p hp hge
    rw [sortedTasks, List.pairwise_cons] at hs
    by_cases h : t < x.1
    · cases i with
      | zero =>
        simp only [List.get?_cons_zero, Option.some.injEq] at hp
        subst hp
        exact h
      | succ m =>
        have hmem : p ∈ xs := List.get?_mem (by simpa using hp)
        exact lt_of_lt_of_le h (hs.1 p hmem)
    · cases i with
      | zero => simp [insertIndex, h] at hge
      | succ m =>
        simp only [insertIndex, if_neg h, Nat.add_le_add_iff_right] at hge
        exact ih hs.2 m p (by simpa using hp) hge

theorem sortedTasks_insertAt {F : Type} :
    ∀ (l : List (Time × F)) (t : Time) (x : F), sortedTasks l →
      sortedTasks (insertAt l (insertIndex l t) (t, x)) := by
  intro l t x
  induction l with
  | nil => intro _; simp [insertAt, insertIndex, sortedTasks]
  | cons a as ih =>
    intro hs
    rw [sortedTasks, List.pairwise_cons] at hs
    by_cases h : t < a.1
    · simp only [insertIndex, if_pos h, insertAt, sortedTasks, List.pairwise_cons]
      refine ⟨?_, ?_⟩
      · intro q hq
        rcases List.mem_cons.mp hq with hq | hq
        · subst hq; exact le_of_lt h
        · exact le_of_lt (lt_of_lt_of_le h (hs.1 q hq))
      · exact hs
    · simp only [insertIndex, if_neg h, insertAt, sortedTasks, List.pairwise_cons]
      refine ⟨?_, ih hs.2⟩
      intro q hq
      have hq2 : q ∈ (t, x) :: as := (insertAt_perm as (insertIndex as t) (t, x)).mem_iff.mp hq
      rcases List.mem_cons.mp hq2 with hq2 | hq2
      · subst hq2; exact le_of_not_lt h
      · exact hs.1 q hq2

theorem insert_task_sorted {F : Type} [DecidableEq F] (now delay : Time) (what : F)
    (st : SchedState F) (hs : sortedTasks st.tasks) :
    sortedTasks (insert_task now delay what st).tasks := by
  rw [insert_task]
  split
  · exact hs
  · split <;> simpa [schedule_next] using sortedTasks_insertAt st.tasks (now + delay) what hs

/-- Behaviour of `process_next` on a nonempty queue: it pops the head,
runs it, and finishes with a fresh active handle armed either for the
new head deadline or for the freshly enqueued watchdog. -/
theorem process_next_spec {F : Type} [DecidableEq F]
    (run : F → SchedState F → SchedState F) (wd : F) (now t0 : Time) (f : F)
    (rest : List (Time × F)) (sch : Option Handle) :
    ∃ st2, process_next run wd now ⟨(t0, f) :: rest, sch⟩ = .ok (f, st2) ∧
      ((∃ t g r2, st2.tasks = (t, g) :: r2 ∧
          st2.scheduled = some ⟨now + max 0 (t - now), true⟩) ∨
       (st2.tasks = [(now + 60, wd)] ∧ st2.scheduled = some ⟨now + 60, true⟩)) := by
  cases htasks : (run f ⟨rest, sch⟩).tasks with
  | cons hd r2 =>
    obtain ⟨t, g⟩ := hd
    refine ⟨schedule_next now (max 0 (t - now)) (run f ⟨rest, sch⟩), ?_, ?_⟩
    · simp [process_next, htasks, schedule_next]
    · left
      refine ⟨t, g, r2, ?_, ?_⟩ <;> simp [schedule_next, htasks]
  | nil =>
    have h2 : (insert_task now 60 wd (run f ⟨rest, sch⟩)).scheduled =
        some ⟨now + 60, true⟩ := by
      rw [insert_task]
      simp [htasks, insertIndex, insertAt, schedule_next]
    have h1 : (insert_task now 60 wd (run f ⟨rest, sch⟩)).tasks = [(now + 60, wd)] := by
      rw [insert_task]
      simp [htasks, insertIndex, insertAt, schedule_next]
    refine ⟨insert_task now 60 wd (run f ⟨rest, sch⟩), ?_, Or.inr ⟨h1, h2⟩⟩
    simp [process_next, htasks, h2]

/-- Exact unfolding of `insert_task` with the let bindings resolved. -/
theorem insert_task_eq {F : Type} [DecidableEq F] (now delay : Time) (what : F)
    (st : SchedState F) :
    insert_task now delay what st =
      if 0 < insertIndex st.tasks (now + delay) ∧ delay = 0 ∧
          (st.tasks.get? (insertIndex st.tasks (now + delay) - 1)).map Prod.snd =
            some what then st
      else if insertIndex st.tasks (now + delay) = 0 then
        ⟨insertAt st.tasks (insertIndex st.tasks (now + delay)) (now + delay, what),
          some ⟨now + delay, true⟩⟩
      else
        ⟨insertAt st.tasks (insertIndex st.tasks (now + delay)) (now + delay, what),
          st.scheduled⟩ := rfl

theorem insert_task_zero_idem {F : Type} [DecidableEq F] (now : Time) (what : F)
    (st : SchedState F) :
    insert_task now 0 what (insert_task now 0 what st) = insert_task now 0 what st := by
  by_cases hc : 0 < insertIndex st.tasks (now + 0) ∧ (0 : Time) = 0 ∧
      (st.tasks.get? (insertIndex st.tasks (now + 0) - 1)).map Prod.snd = some what
  · have h1 : insert_task now 0 what st = st := by
      rw [insert_task_eq, if_pos hc]
    rw [h1]
    exact h1
  · have htasks : (insert_task now 0 what st).tasks =
        insertAt st.tasks (insertIndex st.tasks (now + 0)) (now + 0, what) := by
      rw [insert_task_eq, if_neg hc]
      split <;> rfl
    have hgoal : ∀ A : SchedState F,
        A.tasks = insertAt st.tasks (insertIndex st.tasks (now + 0)) (now + 0, what) →
        insert_task now 0 what A = A := by
      intro A hA
      have hcond : 0 < insertIndex A.tasks (now + 0) ∧ (0 : Time) = 0 ∧
          (A.tasks.get? (insertIndex A.tasks (now + 0) - 1)).map Prod.snd = some what := by
        rw [hA, insertIndex_insertAt]
        refine ⟨Nat.succ_pos _, rfl, ?_⟩
        simp only [Nat.add_sub_cancel]
        rw [insertAt_get_self _ _ _ (insertIndex_le_length st.tasks (now + 0))]
        rfl
      rw [insert_task_eq, if_pos hcond]
    exact hgoal _ htasks

theorem insert_task_count {F : Type} [DecidableEq F] (now delay : Time) (what : F)
    (st : SchedState F) :
    taskCount (insert_task now delay what st).tasks what ≤ taskCount st.tasks what + 1 := by
  simp only [insert_task]
  split
  · omega
  · have hperm := insertAt_perm st.tasks (insertIndex st.tasks (now + delay))
      (now + delay, what)
    have hcnt : (insertAt st.tasks (insertIndex st.tasks (now + delay))
        (now + delay, what)).countP (fun p => decide (p.2 = what)) =
        st.tasks.countP (fun p => decide (p.2 = what)) +
          if (now + delay, what).2 = what then 1 else 0 := by
      rw [hperm.countP_eq, List.countP_cons]
      split <;> simp_all
    split <;> simp only [schedule_next, taskCount] <;> rw [hcnt] <;> split <;> omega

/-- Claim C1: after every call to process_next with a task to pop, either
the task queue is non-empty and the timer is armed for the head deadline
(with delay clipped at 0 when the deadline has passed), or the watchdog
has been enqueued at now + 60 with the timer armed for it; the call
returns normally, so the failure branch raising NO SCHEDULED TASK is
unreachable. -/
theorem c1_no_idle {F : Type} [DecidableEq F] (run : F → SchedState F → SchedState F)
    (wd : F) (now : Time) (st : SchedState F) (h : st.tasks ≠ []) :
    ∃ f st2, process_next run wd now st = .ok (f, st2) ∧
      ((∃ t g r2, st2.tasks = (t, g) :: r2 ∧
          st2.scheduled = some ⟨now + max 0 (t - now), true⟩) ∨
       (st2.tasks = [(now + 60, wd)] ∧ st2.scheduled = some ⟨now + 60, true⟩)) := by
  obtain ⟨tasks, sch⟩ := st
  cases tasks with
  | nil => exact absurd rfl h
  | cons hd rest =>
    obtain ⟨t0, f⟩ := hd
    obtain ⟨st2, h1, h2⟩ := process_next_spec run wd now t0 f rest sch
    exact ⟨f, st2, h1, h2⟩

/-- Claim C1 witness: a concrete scheduler state with one queued task. -/
theorem c1_no_idle_witness :
    ((⟨[((0 : Time), (3 : Nat))], none⟩ : SchedState Nat).tasks ≠ []) ∧
    ∃ f st2, process_next (fun _ s => s) 7 0
        (⟨[((0 : Time), (3 : Nat))], none⟩ : SchedState Nat) = .ok (f, st2) ∧
      ((∃ t g r2, st2.tasks = (t, g) :: r2 ∧
          st2.scheduled = some ⟨0 + max 0 (t - 0), true⟩) ∨
       (st2.tasks = [((0 : Time) + 60, 7)] ∧ st2.scheduled = some ⟨0 + 60, true⟩)) :=
  ⟨by simp, c1_no_idle (fun _ s => s) 7 0 ⟨[(0, 3)], none⟩ (by simp)⟩

/-- Claim C2: insert_task preserves the sorted-by-deadline invariant;
every task strictly before the computed insertion point has deadline at
most the new deadline (so a tie is broken FIFO, the new task going after
the existing ones) and, in a sorted queue, every task from the insertion
point on has a strictly later deadline; and process_next always pops the
head task, whose deadline in a sorted queue is minimal.  Hence
executions with no intervening dispatch run tasks in non-decreasing
deadline order with FIFO ties. -/
theorem c2_ordering {F : Type} [DecidableEq F] (now delay : Time) (what : F)
    (st : SchedState F) (hs : sortedTasks st.tasks) :
    sortedTasks (insert_task now delay what st).tasks ∧
    (∀ i, i < insertIndex st.tasks (now + delay) →
      ∃ p, st.tasks.get? i = some p ∧ p.1 ≤ now + delay) ∧
    (∀ i p, st.tasks.get? i = some p → insertIndex st.tasks (now + delay) ≤ i →
      now + delay < p.1) ∧
    (∀ t0 f rest, st.tasks = (t0, f) :: rest →
      (∀ p ∈ rest, t0 ≤ p.1) ∧
      ∀ run wd, ∃ st2, process_next run wd now st = Except.ok (f, st2)) := by
  refine ⟨insert_task_sorted now delay what st hs, ?_, ?_, ?_⟩
  · intro i hi
    exact insertIndex_before st.tasks (now + delay) i hi
  · intro i p hp hge
    exact insertIndex_after st.tasks (now + delay) hs i p hp hge
  · intro t0 f rest hrest
    constructor
    · intro p hp
      rw [hrest, sortedTasks, List.pairwise_cons] at hs
      exact hs.1 p hp
    · intro run wd
      obtain ⟨tasks, sch⟩ := st
      simp only at hrest
      subst hrest
      obtain ⟨st2, h1, _⟩ := process_next_spec run wd now t0 f rest sch
      exact ⟨st2, h1⟩

/-- Claim C2 witness: a concrete sorted queue. -/
theorem c2_ordering_witness :
    sortedTasks (⟨[((0 : Time), (9 : Nat)), (3, 4)], none⟩ : SchedState Nat).tasks ∧
    (sortedTasks (insert_task 1 2 5 (⟨[((0 : Time), (9 : Nat)), (3, 4)], none⟩ :
        SchedState Nat)).tasks ∧
    (∀ i, i < insertIndex (⟨[((0 : Time), (9 : Nat)), (3, 4)], none⟩ :
        SchedState Nat).tasks (1 + 2) →
      ∃ p, (⟨[((0 : Time), (9 : Nat)), (3, 4)], none⟩ :
        SchedState Nat).tasks.get? i = some p ∧ p.1 ≤ 1 + 2) ∧
    (∀ i p, (⟨[((0 : Time), (9 : Nat)), (3, 4)], none⟩ :
        SchedState Nat).tasks.get? i = some p →
      insertIndex (⟨[((0 : Time), (9 : Nat)), (3, 4)], none⟩ :
        SchedState Nat).tasks (1 + 2) ≤ i → 1 + 2 < p.1) ∧
    (∀ t0 f rest, (⟨[((0 : Time), (9 : Nat)), (3, 4)], none⟩ :
        SchedState Nat).tasks = (t0, f) :: rest →
      (∀ p ∈ rest, t0 ≤ p.1) ∧
      ∀ run wd, ∃ st2, process_next run wd 1
        (⟨[((0 : Time), (9 : Nat)), (3, 4)], none⟩ : SchedState Nat) =
          Except.ok (f, st2))) :=
  ⟨by norm_num [sortedTasks, List.pairwise_cons],
   c2_ordering 1 2 5 ⟨[(0, 9), (3, 4)], none⟩
     (by norm_num [sortedTasks, List.pairwise_cons])⟩

/-- Claim C3 counterexample: from the empty queue, insert an immediate
task with callable 0, then one with callable 1 (both at time 0).  A
third call inserting callable 0 with delay 0 finds the insertion point
at index 2; callable 0 is already queued ahead of it (at index 0), yet
the call is not a no-op: the coalescing test only looks at the task
immediately before the insertion point. -/
theorem c3_counterexample :
    (insert_task 0 0 1 (insert_task 0 0 0 (⟨[], none⟩ :
        SchedState Nat))).tasks.get? 0 = some (0, 0) ∧
    insertIndex (insert_task 0 0 1 (insert_task 0 0 0 (⟨[], none⟩ :
        SchedState Nat))).tasks (0 + 0) = 2 ∧
    insert_task 0 0 0 (insert_task 0 0 1 (insert_task 0 0 0 (⟨[], none⟩ :
        SchedState Nat))) ≠
      insert_task 0 0 1 (insert_task 0 0 0 (⟨[], none⟩ : SchedState Nat)) := by
  have h1 : insert_task (0 : Time) 0 (0 : Nat) ⟨[], none⟩ =
      ⟨[(0, 0)], some ⟨0, true⟩⟩ := by
    rw [insert_task_eq]
    norm_num [insertIndex, insertAt]
  have h2 : insert_task (0 : Time) 0 (1 : Nat) ⟨[(0, 0)], some ⟨0, true⟩⟩ =
      ⟨[(0, 0), (0, 1)], some ⟨0, true⟩⟩ := by
    rw [insert_task_eq]
    norm_num [insertIndex, insertAt]
  have h3 : insert_task (0 : Time) 0 (0 : Nat) ⟨[(0, 0), (0, 1)], some ⟨0, true⟩⟩ =
      ⟨[(0, 0), (0, 1), (0, 0)], some ⟨0, true⟩⟩ := by
    rw [insert_task_eq]
    norm_num [insertIndex, insertAt]
  rw [h1, h2, h3]
  refine ⟨by norm_num, by norm_num [insertIndex], ?_⟩
  intro heq
  have := congrArg (fun s : SchedState Nat => s.tasks.length) heq
  simp at this

/-- Claim C3 amended: an insert_task call is a no-op exactly when its
delay is 0, the computed insertion point is positive, and the task
immediately before the insertion point has the same callable; a task
with the same callable queued further ahead does not coalesce. -/
theorem c3_coalesce_amended {F : Type} [DecidableEq F] (now delay : Time) (what : F)
    (st : SchedState F) :
    insert_task now delay what st = st ↔
      (0 < insertIndex st.tasks (now + delay) ∧ delay = 0 ∧
        (st.tasks.get? (insertIndex st.tasks (now + delay) - 1)).map Prod.snd =
          some what) := by
  constructor
  · intro heq
    by_contra hc
    have hlen : (insert_task now delay what st).tasks.length = st.tasks.length + 1 := by
      simp only [insert_task]
      rw [if_neg hc]
      split <;> simp [schedule_next, insertAt_length]
    rw [heq] at hlen
    omega
  · intro h
    simp only [insert_task]
    rw [if_pos h]

/-- Claim C4: N consecutive insert_task(fn, 0) calls with no intervening
dispatch collapse to a single call, so at most one task with that
callable is added by the burst. -/
theorem c4_coalesce_burst {F : Type} [DecidableEq F] (now : Time) (what : F)
    (st : SchedState F) (N : Nat) (h : 1 ≤ N) :
    (fun s => insert_task now 0 what s)^[N] st = insert_task now 0 what st ∧
    taskCount ((fun s => insert_task now 0 what s)^[N] st).tasks what ≤
      taskCount st.tasks what + 1 := by
  obtain ⟨k, rfl⟩ : ∃ k, N = k + 1 := ⟨N - 1, by omega⟩
  have hiter : (fun s => insert_task now 0 what s)^[k + 1] st =
      insert_task now 0 what st := by
    rw [Function.iterate_succ_apply]
    exact Function.iterate_fixed (insert_task_zero_idem now what st) k
  refine ⟨hiter, ?_⟩
  rw [hiter]
  exact insert_task_count now 0 what st

/-- Claim C4 witness: a burst of three immediate inserts of the same
callable from the empty queue. -/
theorem c4_coalesce_burst_witness :
    1 ≤ 3 ∧
    ((fun s => insert_task (0 : Time) 0 (0 : Nat) s)^[3] ⟨[], none⟩ =
      insert_task 0 0 0 ⟨[], none⟩ ∧
    taskCount ((fun s => insert_task (0 : Time) 0 (0 : Nat) s)^[3]
        (⟨[], none⟩ : SchedState Nat)).tasks 0 ≤
      taskCount (⟨[], none⟩ : SchedState Nat).tasks 0 + 1) :=
  ⟨by norm_num, c4_coalesce_burst 0 0 ⟨[], none⟩ 3 (by norm_num)⟩

/-! Helper lemmas about the preemptive firing loop. -/

theorem fireLoop_calls_le (acc : Bool) (tr : List (FireRes × Time)) :
    (fireLoop acc tr).fireCalls ≤ tr.length := by
  induction tr generalizing acc with
  | nil => simp [fireLoop]
  | cons p rest ih =>
    obtain ⟨r, ts⟩ := p
    by_cases hf : r.did_fire
    · by_cases hb : fireBudget < ts
      · simp [fireLoop, hf, hb]
      · simp only [fireLoop, if_pos hf, if_neg hb, List.length_cons]
        have := ih (acc || r.did_fire)
        omega
    · simp [fireLoop, hf]

theorem fireLoop_calls_pos (acc : Bool) (p : FireRes × Time)
    (rest : List (FireRes × Time)) : 1 ≤ (fireLoop acc (p :: rest)).fireCalls := by
  obtain ⟨r, ts⟩ := p
  by_cases hf : r.did_fire
  · by_cases hb : fireBudget < ts
    · simp [fireLoop, hf, hb]
    · simp [fireLoop, hf, hb]
  · simp [fireLoop, hf]

theorem fireLoop_take_prev (acc : Bool) (tr : List (FireRes × Time)) :
    ∀ p ∈ tr.take ((fireLoop acc tr).fireCalls - 1),
      p.1.did_fire = true ∧ ¬ fireBudget < p.2 := by
  induction tr generalizing acc with
  | nil => simp
  | cons q rest ih =>
    obtain ⟨r, ts⟩ := q
    by_cases hf : r.did_fire
    · by_cases hb : fireBudget < ts
      · simp [fireLoop, hf, hb]
      · simp only [fireLoop, if_pos hf, if_neg hb]
        cases hk : (fireLoop (acc || r.did_fire) rest).fireCalls with
        | zero => simp
        | succ j =>
          intro p hp
          simp only [Nat.add_sub_cancel, List.take_succ_cons] at hp
          rcases List.mem_cons.mp hp with hp | hp
          · subst hp
            exact ⟨hf, hb⟩
          · have := ih (acc || r.did_fire)
            rw [hk] at this
            exact this p (by simpa using hp)
    · simp [fireLoop, hf]

theorem fireLoop_fired (acc : Bool) (tr : List (FireRes × Time)) :
    (fireLoop acc tr).fired =
      (acc || (tr.take (fireLoop acc tr).fireCalls).any fun p => p.1.did_fire) := by
  induction tr generalizing acc with
  | nil => simp [fireLoop]
  | cons q rest ih =>
    obtain ⟨r, ts⟩ := q
    by_cases hf : r.did_fire
    · by_cases hb : fireBudget < ts
      · simp [fireLoop, hf, hb]
      · simp only [fireLoop, if_pos hf, if_neg hb, List.take_succ_cons, List.any_cons]
        rw [ih (acc || r.did_fire)]
        simp [hf, Bool.or_assoc, Bool.or_comm]
    · simp [fireLoop, hf]

theorem fireLoop_exh (acc : Bool) (tr : List (FireRes × Time)) :
    (fireLoop acc tr).exhCalls =
      if (fireLoop acc tr).fireCalls = 0 then []
      else
        match tr.get? ((fireLoop acc tr).fireCalls - 1) with
        | none => []
        | some p =>
          if p.1.did_fire then [] else [(p.1.exhausted, p.1.output_ok)] := by
  induction tr generalizing acc with
  | nil => simp [fireLoop]
  | cons q rest ih =>
    obtain ⟨r, ts⟩ := q
    by_cases hf : r.did_fire
    · by_cases hb : fireBudget < ts
      · simp [fireLoop, hf, hb]
      · simp only [fireLoop, if_pos hf, if_neg hb]
        cases hrest : rest with
        | nil => simp [fireLoop, hf]
        | cons q2 r2 =>
          have hpos : 1 ≤ (fireLoop (acc || r.did_fire) rest).fireCalls := by
            rw [hrest]
            exact fireLoop_calls_pos (acc || r.did_fire) q2 r2
          rw [← hrest]
          have hne : ¬ (fireLoop (acc || r.did_fire) rest).fireCalls + 1 = 0 := by omega
          rw [if_neg hne]
          have hidx : (fireLoop (acc || r.did_fire) rest).fireCalls + 1 - 1 =
              ((fireLoop (acc || r.did_fire) rest).fireCalls - 1) + 1 := by omega
          rw [hidx, List.get?_cons_succ, ih (acc || r.did_fire)]
          rw [if_neg (by omega)]
    · simp [fireLoop, hf]

/-- Claim C5: the preemptive firing path.  An unauthorized actor yields
False with no fire and no exhaustion call; every loop iteration that is
followed by another one fired within the 20 ms budget (so the loop never
continues past an over-budget firing iteration, and a non-firing
iteration is always the last); the return value is true exactly when some
executed iteration fired; and handle_exhaustion is called exactly once,
with the (exhausted, output_ok) of that iteration, when the last executed
iteration did not fire, and never otherwise. -/
theorem c5_fire_budget (auth : Bool) (trace : List (FireRes × Time)) :
    fire_actor false trace = ⟨false, 0, []⟩ ∧
    (fire_actor auth trace).fireCalls ≤ trace.length ∧
    (∀ p ∈ trace.take ((fire_actor auth trace).fireCalls - 1),
      p.1.did_fire = true ∧ ¬ fireBudget < p.2) ∧
    ((fire_actor auth trace).fired =
      (trace.take (fire_actor auth trace).fireCalls).any fun p => p.1.did_fire) ∧
    ((fire_actor auth trace).exhCalls =
      if (fire_actor auth trace).fireCalls = 0 then []
      else
        match trace.get? ((fire_actor auth trace).fireCalls - 1) with
        | none => []
        | some p =>
          if p.1.did_fire then [] else [(p.1.exhausted, p.1.output_ok)]) := by
  refine ⟨by simp [fire_actor], ?_, ?_, ?_, ?_⟩ <;> cases auth
  · simp [fire_actor]
  · simpa [fire_actor] using fireLoop_calls_le false trace
  · simp [fire_actor]
  · simpa [fire_actor] using fireLoop_take_prev false trace
  · simp [fire_actor]
  · simpa [fire_actor] using fireLoop_fired false trace
  · simp [fire_actor]
  · simpa [fire_actor] using fireLoop_exh false trace

/-- Claim C6: _fire_actors is total (it returns normally whatever the
primitive does on each actor): its result is exactly the set of ids of
the actors, anywhere in the batch, on which the fire primitive returned
True, and every raised exception is caught and logged in order, so a
raise at position k neither aborts the batch nor hides the outcomes of
the subsequent actors. -/
theorem c6_exception_isolation {α ι ε : Type} [DecidableEq ι]
    (fireOne : α → Except ε Bool) (idOf : α → ι) (actors : List α) :
    (fire_actors fireOne idOf actors).1 =
      ((actors.filter fun a =>
        match fireOne a with
        | .ok true => true
        | _ => false).map idOf).toFinset ∧
    (fire_actors fireOne idOf actors).2 =
      actors.filterMap fun a =>
        match fireOne a with
        | .error e => some e
        | _ => none := by
  induction actors with
  | nil => simp [fire_actors]
  | cons a rest ih =>
    cases hfa : fireOne a with
    | ok b =>
      cases b
      · simp [fire_actors, hfa, List.filter_cons, List.filterMap_cons, ih]
      · simp [fire_actors, hfa, List.filter_cons, List.filterMap_cons, ih]
    | error e =>
      simp [fire_actors, hfa, List.filter_cons, List.filterMap_cons, ih]

/-- Claim C6 witness: three actors, the middle one raising; the third
still contributes its id and the exception is logged. -/
theorem c6_exception_isolation_witness :
    (fire_actors (fun a : ActorE Nat Nat => fireOnceBool a) ActorE.id
      [⟨1, true, Except.ok ⟨true, true, false⟩⟩, ⟨2, true, Except.error 9⟩,
        ⟨3, true, Except.ok ⟨true, true, false⟩⟩]).1 =
      (([(⟨1, true, Except.ok ⟨true, true, false⟩⟩ : ActorE Nat Nat),
          ⟨2, true, Except.error 9⟩, ⟨3, true, Except.ok ⟨true, true, false⟩⟩].filter
        fun a =>
          match fireOnceBool a with
          | .ok true => true
          | _ => false).map ActorE.id).toFinset :=
  (c6_exception_isolation (fun a : ActorE Nat Nat => fireOnceBool a) ActorE.id
    [⟨1, true, Except.ok ⟨true, true, false⟩⟩, ⟨2, true, Except.error 9⟩,
      ⟨3, true, Except.ok ⟨true, true, false⟩⟩]).1

/-- Claim C10: the authorization guard applies to the fire-once
primitive: an unauthorized actor yields False with no fire() call and no
exhaustion handling. -/
theorem c10_unauthorized_fire_once {ι ε : Type} (a : ActorE ι ε)
    (h : a.authorized = false) :
    fire_actor_once a = .ok ⟨false, 0, []⟩ := by
  simp [fire_actor_once, h]

/-- Claim C10 witness: a concrete unauthorized actor. -/
theorem c10_unauthorized_fire_once_witness :
    (⟨0, false, Except.ok ⟨true, true, true⟩⟩ : ActorE Nat Nat).authorized = false ∧
    fire_actor_once (⟨0, false, Except.ok ⟨true, true, true⟩⟩ : ActorE Nat Nat) =
      .ok ⟨false, 0, []⟩ :=
  ⟨rfl, c10_unauthorized_fire_once _ rfl⟩

theorem rrFireIds_ok {ι ε : Type} [DecidableEq ι] :
    ∀ actors : List (ActorE ι ε), (∀ a ∈ actors, ∃ r, a.fire = .ok r) →
      ∃ ids, rrFireIds actors = .ok ids ∧
        ids.toFinset = (fire_actors fireOnceBool ActorE.id actors).1 := by
  intro actors
  induction actors with
  | nil => exact fun _ => ⟨[], rfl, by simp [fire_actors]⟩
  | cons a rest ih =>
    intro h
    obtain ⟨r, hr⟩ := h a (by simp)
    obtain ⟨ids, hids, hset⟩ := ih fun x hx => h x (by simp [hx])
    have ho : ∃ o, fire_actor_once a = .ok o := by
      by_cases hauth : a.authorized = false
      · exact ⟨⟨false, 0, []⟩, by simp [fire_actor_once, hauth]⟩
      · exact ⟨⟨r.did_fire, 1, if r.did_fire then [] else [(r.exhausted, r.output_ok)]⟩,
          by simp [fire_actor_once, hauth, hr]⟩
    obtain ⟨o, ho⟩ := ho
    refine ⟨if o.fired then a.id :: ids else ids, ?_, ?_⟩
    · simp [rrFireIds, ho, hids]
    · by_cases hf : o.fired
      · simp [hf, fire_actors, fireOnceBool, ho, Except.map, hset]
      · simp [hf, fire_actors, fireOnceBool, ho, Except.map, hset]

/-- Claim C9 counterexample: one enabled, authorized actor whose fire()
raises.  RoundRobinScheduler.strategy propagates the exception, while
SimpleScheduler.strategy with the firing primitive replaced by fire-once
catches it and returns normally with no activity: the two are not
observably equivalent. -/
theorem c9_counterexample :
    RoundRobinScheduler.strategy false
        [(⟨0, true, Except.error 3⟩ : ActorE Nat Nat)] 0 (5 : Nat)
        (⟨[], none⟩ : SchedState Nat) = .error 3 ∧
    simpleStrategyWith fireOnceBool false
        [(⟨0, true, Except.error 3⟩ : ActorE Nat Nat)] 0 (5 : Nat)
        (⟨[], none⟩ : SchedState Nat) = ⟨[], none⟩ := by
  constructor
  · simp [RoundRobinScheduler.strategy, rrFireIds, fire_actor_once]
  · simp [simpleStrategyWith, fire_actors, fireOnceBool, fire_actor_once, Except.map]

/-- Claim C9 amended: provided no fire() call raises, RoundRobin
strategy is observably equivalent to Simple strategy with the firing
primitive replaced by fire-once: each actor gets exactly one fire()
attempt (zero if unauthorized), the fired ids agree as a set, and the
resulting task-queue state (re-enqueue of strategy at delay 0 under the
same activity condition) is identical.  When a fire() raises the two
differ, as the counterexample shows. -/
theorem c9_roundrobin_amended {ι ε F : Type} [DecidableEq ι] [DecidableEq F]
    (didTx : Bool) (actors : List (ActorE ι ε)) (now : Time) (strat : F)
    (st : SchedState F) (h : ∀ a ∈ actors, ∃ r, a.fire = .ok r) :
    (∀ a ∈ actors, ∃ o, fire_actor_once a = .ok o ∧
      o.fireCalls = if a.authorized then 1 else 0) ∧
    ∃ ids, rrFireIds actors = .ok ids ∧
      ids.toFinset = (fire_actors fireOnceBool ActorE.id actors).1 ∧
      RoundRobinScheduler.strategy didTx actors now strat st =
        .ok (simpleStrategyWith fireOnceBool didTx actors now strat st) := by
  constructor
  · intro a ha
    obtain ⟨r, hr⟩ := h a ha
    by_cases hauth : a.authorized = false
    · exact ⟨⟨false, 0, []⟩, by simp [fire_actor_once, hauth], by simp [hauth]⟩
    · have hauth2 : a.authorized = true := by
        cases hab : a.authorized
        · exact absurd hab hauth
        · rfl
      exact ⟨⟨r.did_fire, 1, if r.did_fire then [] else [(r.exhausted, r.output_ok)]⟩,
        by simp [fire_actor_once, hauth, hr], by simp [hauth2]⟩
  · obtain ⟨ids, hids, hset⟩ := rrFireIds_ok actors h
    refine ⟨ids, hids, hset, ?_⟩
    have hiff : (didTx = true ∨ ids ≠ []) ↔
        (didTx = true ∨ (fire_actors fireOnceBool ActorE.id actors).1 ≠ ∅) := by
      rw [← hset]
      exact or_congr Iff.rfl (not_congr (List.toFinset_eq_empty_iff ids)).symm
    simp only [RoundRobinScheduler.strategy, hids, simpleStrategyWith]
    by_cases hc : didTx = true ∨ ids ≠ []
    · rw [if_pos hc, if_pos (hiff.mp hc)]
    · rw [if_neg hc, if_neg fun hx => hc (hiff.mpr hx)]

/-- Claim C9 witness: one firing actor, exception-free. -/
theorem c9_roundrobin_amended_witness :
    (∀ a ∈ [(⟨0, true, Except.ok ⟨true, true, false⟩⟩ : ActorE Nat Nat)],
      ∃ r, a.fire = .ok r) ∧
    ∃ ids, rrFireIds [(⟨0, true, Except.ok ⟨true, true, false⟩⟩ : ActorE Nat Nat)] =
        .ok ids ∧
      ids.toFinset = (fire_actors fireOnceBool ActorE.id
        [(⟨0, true, Except.ok ⟨true, true, false⟩⟩ : ActorE Nat Nat)]).1 ∧
      RoundRobinScheduler.strategy true
          [(⟨0, true, Except.ok ⟨true, true, false⟩⟩ : ActorE Nat Nat)] 0 (5 : Nat)
          (⟨[], none⟩ : SchedState Nat) =
        .ok (simpleStrategyWith fireOnceBool true
          [(⟨0, true, Except.ok ⟨true, true, false⟩⟩ : ActorE Nat Nat)] 0 5
          ⟨[], none⟩) := by
  have hyp : ∀ a ∈ [(⟨0, true, Except.ok ⟨true, true, false⟩⟩ : ActorE Nat Nat)],
      ∃ r, a.fire = Except.ok r := by
    intro a ha
    rw [List.mem_singleton] at ha
    subst ha
    exact ⟨_, rfl⟩
  exact ⟨hyp, (c9_roundrobin_amended true _ 0 5 ⟨[], none⟩ hyp).2⟩

theorem minTime_mem : ∀ (l : List Time) (t : Time), minTime l = some t → t ∈ l := by
  intro l
  induction l with
  | nil => intro t h; simp [minTime] at h
  | cons x xs ih =>
    intro t h
    simp only [minTime] at h
    cases hm : minTime xs with
    | none =>
      rw [hm] at h
      simp only [Option.some.injEq] at h
      subst h
      exact List.mem_cons_self x xs
    | some m =>
      rw [hm] at h
      simp only [Option.some.injEq] at h
      subst h
      rcases le_total x m with hle | hle
      · rw [min_eq_left hle]
        exact List.mem_cons_self x xs
      · rw [min_eq_right hle]
        exact List.mem_cons_of_mem x (ih m hm)

theorem next_slot_ne_zero {E : Type} (m : Monitor E) (ns : Time)
    (h : next_slot m = some ns) : ns ≠ 0 := by
  have hmem := minTime_mem _ _ h
  have := List.of_mem_filter hmem
  simpa using this

/-- Claim C7 counterexample: the deprecated BaselineScheduler also
implements the event API (it is one of the cited sources), yet its
tunnel_tx_nack only records the backoff: afterwards the monitor reports
a next slot, but no strategy task or delayed call of any kind has been
scheduled (Baseline has no task queue and both of its handles stay
empty), so a nack does not always schedule a future strategy tick. -/
theorem c7_counterexample :
    next_slot (BaselineScheduler.tunnel_tx_nack 5
        (⟨⟨[(0, 0)]⟩, none, none⟩ : BaselineState Nat) 0).monitor = some 5 ∧
    (BaselineScheduler.tunnel_tx_nack 5
        (⟨⟨[(0, 0)]⟩, none, none⟩ : BaselineState Nat) 0).scheduled = none ∧
    (BaselineScheduler.tunnel_tx_nack 5
        (⟨⟨[(0, 0)]⟩, none, none⟩ : BaselineState Nat) 0).watchdog = none := by
  refine ⟨?_, rfl, rfl⟩
  norm_num [BaselineScheduler.tunnel_tx_nack, set_backoff, next_slot, minTime]

/-- Claim C7 amended: SimpleScheduler (and its subclasses) satisfy the
claim: tunnel_tx_nack records the backoff via the monitor and, whenever
the monitor reports a next slot, enqueues a strategy task at delay
max(0, next_slot - now); when no slot is reported the task queue is
untouched.  BaselineScheduler.tunnel_tx_nack only records the backoff
and schedules nothing, as the counterexample shows. -/
theorem c7_nack_amended {E F : Type} [DecidableEq E] [DecidableEq F] (strat : F)
    (blockedUntil now : Time) (st : SimpleState E F) (ep : E) :
    (SimpleScheduler.tunnel_tx_nack strat blockedUntil now st ep).monitor =
      set_backoff st.monitor ep blockedUntil ∧
    (∀ ns, next_slot (set_backoff st.monitor ep blockedUntil) = some ns →
      (SimpleScheduler.tunnel_tx_nack strat blockedUntil now st ep).sched =
        insert_task now (max 0 (ns - now)) strat st.sched) ∧
    (next_slot (set_backoff st.monitor ep blockedUntil) = none →
      (SimpleScheduler.tunnel_tx_nack strat blockedUntil now st ep).sched =
        st.sched) := by
  refine ⟨?_, ?_, ?_⟩
  · simp only [SimpleScheduler.tunnel_tx_nack]
    cases h : next_slot (set_backoff st.monitor ep blockedUntil) with
    | none => rfl
    | some ns =>
      dsimp only
      split <;> rfl
  · intro ns hns
    have hz := next_slot_ne_zero _ _ hns
    simp only [SimpleScheduler.tunnel_tx_nack, hns]
    rw [if_pos hz]
  · intro hnone
    simp only [SimpleScheduler.tunnel_tx_nack, hnone]

/-- Claim C7 witness: a registered endpoint, nack sets its backoff to 5
and a strategy task is enqueued at delay max(0, 5 - 1). -/
theorem c7_nack_amended_witness :
    next_slot (set_backoff (⟨[(0, 0)]⟩ : Monitor Nat) 0 5) = some 5 ∧
    (SimpleScheduler.tunnel_tx_nack (9 : Nat) 5 1
        (⟨⟨[(0, 0)]⟩, ⟨[], none⟩⟩ : SimpleState Nat Nat) 0).sched =
      insert_task 1 (max 0 (5 - 1)) 9 (⟨[], none⟩ : SchedState Nat) := by
  have hns : next_slot (set_backoff (⟨[(0, 0)]⟩ : Monitor Nat) 0 5) = some 5 := by
    norm_num [set_backoff, next_slot, minTime]
  exact ⟨hns, (c7_nack_amended 9 5 1 ⟨⟨[(0, 0)]⟩, ⟨[], none⟩⟩ 0).2.1 5 hns⟩

/-- Claim C8 counterexample: a raising replication callback makes
_check_replication propagate the exception with no task enqueued, and a
raising migrate call makes _maintenance_loop propagate the exception
with no task enqueued: there is no exception handler, so neither
strategy nor the periodic task is re-enqueued on failure. -/
theorem c8_counterexample :
    check_replication (Except.error (42 : Nat)) 2 0 (0 : Nat) 1 ⟨[], none⟩ =
      Except.error 42 ∧
    maintenance_loop [Except.error (7 : Nat)] [] 300 0 (0 : Nat) 1 ⟨[], none⟩ =
      Except.error 7 :=
  ⟨rfl, rfl⟩

/-- Claim C8 amended: when the callbacks return normally,
_check_replication enqueues strategy at 0 and itself at the replication
interval, and _maintenance_loop enqueues strategy at 0 and itself at the
maintenance delay; when any callback raises, the exception propagates
out of the task body and nothing is enqueued. -/
theorem c8_periodic_amended {ε F : Type} [DecidableEq F]
    (replicationLoop : Except ε Unit) (migrations enables : List (Except ε Unit))
    (interval delay now : Time) (strat chk mnt : F) (st : SchedState F) :
    (replicationLoop = .ok () →
      check_replication replicationLoop interval now strat chk st =
        .ok (insert_task now interval chk (insert_task now 0 strat st))) ∧
    (∀ e, replicationLoop = .error e →
      check_replication replicationLoop interval now strat chk st = .error e) ∧
    (run_effects migrations = .ok () → run_effects enables = .ok () →
      maintenance_loop migrations enables delay now strat mnt st =
        .ok (insert_task now delay mnt (insert_task now 0 strat st))) ∧
    (∀ e, run_effects migrations = .error e →
      maintenance_loop migrations enables delay now strat mnt st = .error e) ∧
    (∀ e, run_effects migrations = .ok () → run_effects enables = .error e →
      maintenance_loop migrations enables delay now strat mnt st = .error e) := by
  refine ⟨?_, ?_, ?_, ?_, ?_⟩
  · intro h
    simp [check_replication, h]
  · intro e h
    simp [check_replication, h]
  · intro h1 h2
    simp [maintenance_loop, h1, h2]
  · intro e h
    simp [maintenance_loop, h]
  · intro e h1 h2
    simp [maintenance_loop, h1, h2]

/-- Claim C8 witness: concrete succeeding and failing callbacks. -/
theorem c8_periodic_amended_witness :
    check_replication (Except.ok () : Except Nat Unit) 2 0 (0 : Nat) 1 ⟨[], none⟩ =
      .ok (insert_task 0 2 1 (insert_task 0 0 0 ⟨[], none⟩)) ∧
    maintenance_loop ([] : List (Except Nat Unit)) [] 300 0 (0 : Nat) 1 ⟨[], none⟩ =
      .ok (insert_task 0 300 1 (insert_task 0 0 0 ⟨[], none⟩)) :=
  ⟨(c8_periodic_amended (Except.ok ()) [] [] 2 300 0 0 1 1 ⟨[], none⟩).1 rfl,
   (c8_periodic_amended (Except.ok () : Except Nat Unit) [] [] 2 300 0 0 1 1
     ⟨[], none⟩).2.2.1 rfl rfl⟩

/-- Claim C3 amended witness: the characterization applied at a
concrete one-task queue. -/
theorem c3_coalesce_amended_witness :
    insert_task 0 0 (0 : Nat) ⟨[((0 : Time), (0 : Nat))], some ⟨0, true⟩⟩ =
        (⟨[((0 : Time), (0 : Nat))], some ⟨0, true⟩⟩ : SchedState Nat) ↔
      (0 < insertIndex [((0 : Time), (0 : Nat))] (0 + 0) ∧ (0 : Time) = 0 ∧
        ([((0 : Time), (0 : Nat))].get?
          (insertIndex [((0 : Time), (0 : Nat))] (0 + 0) - 1)).map Prod.snd =
            some 0) :=
  c3_coalesce_amended 0 0 0 ⟨[(0, 0)], some ⟨0, true⟩⟩

/-- Claim C5 witness: the unauthorized clause at a concrete trace. -/
theorem c5_fire_budget_witness :
    fire_actor false [(⟨true, true, false⟩, 0)] = ⟨false, 0, []⟩ :=
  (c5_fire_budget false [(⟨true, true, false⟩, 0)]).1

end Calvin
